import Mathlib

/-!
Verification of the `b-f` Bloom-filter crate.

The crate contains four filter implementations:
* `src/bloom_filters/base.rs` — trait `Filter` with default parameter
  formulas `calculate_m` / `calculate_k`;
* `src/bloom_filters/classical_bloom_filter.rs` — `ClassicalBloomFilter`,
  a single bit array, double hashing with seeds 0 and 64;
* `src/bloom.rs` — `BloomFilter` (same layout as the classical one) and
  `PartitionedBloomFilter` (k bit arrays of size `m / k`);
* `src/lib.rs` — an older `BloomFilter` that evaluates the hash once per
  probe, with seed `i`.

The `f64` parameter formulas are idealised over `ℝ`; `u64` arithmetic is
`ℕ` with explicit reduction modulo `2 ^ 64` where the source can wrap;
Rust panics (division by zero in `calculate_k` when `n = 0`, `m / k` when
`k = 0`) are modelled by `Option`.  The external hash
`xxhash_rust::xxh3::xxh3_64_with_seed` is not part of the crate; every
definition is parametric in a hash family `H : Value → ℕ → ℕ` standing
for it, so all theorems hold for the actual hash in particular.
-/

/-- Element representation: an opaque byte sequence (`&[u8]`). -/
abbrev Value := List ℕ

/-- A seeded 64-bit hash family, standing for `xxh3_64_with_seed`. -/
abbrev HashFn := Value → ℕ → ℕ

/-- The modulus of Rust `u64` arithmetic. -/
def U64 : ℕ := 2 ^ 64

/-- The exact (pre-wrap) value of the Rust expression `hash1 + i * hash2`
where `hash1 = H(v, 0) % M` and `hash2 = H(v, 64) % M`. -/
def kmSum (H : HashFn) (v : Value) (M i : ℕ) : ℕ :=
  H v 0 % M + i * (H v 64 % M)

/-- The `i`-th probe index as the source computes it in `u64` arithmetic:
`((hash1 + i * hash2) % M)`, where the sum wraps modulo `2 ^ 64`. -/
def kmIdx (H : HashFn) (v : Value) (M i : ℕ) : ℕ :=
  kmSum H v M i % U64 % M

namespace Filter

/-- `base.rs`, trait default `calculate_m`:
`-(f.ln() * n as f64 / (LN_2.powi(2))).ceil() as u64`.
The negation is applied to the already-ceiled value; the `as u64` cast
saturates negative values to `0`, modelled by `Int.toNat`. -/
noncomputable def calculate_m (f : ℝ) (n : ℕ) : ℕ :=
  (-⌈Real.log f * (n : ℝ) / Real.log 2 ^ 2⌉).toNat

/-- `base.rs`, trait default `calculate_k`:
`((m / n as u64) as f64 * LN_2).ceil() as u64`; `m / n` is truncating
integer division (and panics when `n = 0`, guarded by callers). -/
noncomputable def calculate_k (m n : ℕ) : ℕ :=
  (⌈((m / n : ℕ) : ℝ) * Real.log 2⌉).toNat

end Filter

/-- `classical_bloom_filter.rs::ClassicalBloomFilter`. -/
structure ClassicalBloomFilter where
  m : ℕ
  k : ℕ
  storage : List Bool
deriving DecidableEq

namespace ClassicalBloomFilter

/-- `ClassicalBloomFilter::new` (uses the `Filter` trait defaults);
`none` models the division-by-zero panic inside `calculate_k` at `n = 0`. -/
noncomputable def new (n : ℕ) (f : ℝ) : Option ClassicalBloomFilter :=
  if n = 0 then none
  else some
    { m := Filter.calculate_m f n
      k := Filter.calculate_k (Filter.calculate_m f n) n
      storage := List.replicate (Filter.calculate_m f n) false }

/-- The `i`-th probe index of insert/lookup: `(hash1 + i * hash2) % self.m`
with both hashes reduced modulo `self.m` first. -/
def probe (H : HashFn) (s : ClassicalBloomFilter) (v : Value) (i : ℕ) : ℕ :=
  kmIdx H v s.m i

/-- `ClassicalBloomFilter::insert`: sets the `k` probed bits to 1. -/
def insert (H : HashFn) (s : ClassicalBloomFilter) (v : Value) :
    ClassicalBloomFilter :=
  { s with
    storage := (List.range s.k).foldl
      (fun st i => st.set (probe H s v i) true) s.storage }

/-- `ClassicalBloomFilter::lookup`: true iff no probed bit reads `Some(false)`. -/
def lookup (H : HashFn) (s : ClassicalBloomFilter) (v : Value) : Bool :=
  (List.range s.k).all fun i => s.storage[probe H s v i]? != some false

/-- `ClassicalBloomFilter::get_size`: the bit-array length. -/
def get_size (s : ClassicalBloomFilter) : ℕ :=
  s.storage.length

/-- Structural invariant established by `new`: at least one bit, and the
`m` field matches the actual bit-array length. -/
def WF (s : ClassicalBloomFilter) : Prop :=
  1 ≤ s.m ∧ s.storage.length = s.m

end ClassicalBloomFilter

namespace Bloom

/-- `bloom.rs::BloomFilter`. -/
structure BloomFilter where
  m : ℕ
  k : ℕ
  storage : List Bool
deriving DecidableEq

namespace BloomFilter

/-- `bloom.rs::BloomFilter::calculate_m` (textual copy of the trait default). -/
noncomputable def calculate_m (f : ℝ) (n : ℕ) : ℕ :=
  (-⌈Real.log f * (n : ℝ) / Real.log 2 ^ 2⌉).toNat

/-- `bloom.rs::BloomFilter::calculate_k` (textual copy of the trait default). -/
noncomputable def calculate_k (m n : ℕ) : ℕ :=
  (⌈((m / n : ℕ) : ℝ) * Real.log 2⌉).toNat

/-- `bloom.rs::BloomFilter::new`. -/
noncomputable def new (n : ℕ) (f : ℝ) : Option BloomFilter :=
  if n = 0 then none
  else some
    { m := calculate_m f n
      k := calculate_k (calculate_m f n) n
      storage := List.replicate (calculate_m f n) false }

/-- Probe index of `bloom.rs::BloomFilter`: identical to the classical one. -/
def probe (H : HashFn) (s : BloomFilter) (v : Value) (i : ℕ) : ℕ :=
  kmIdx H v s.m i

/-- `bloom.rs::BloomFilter::insert`. -/
def insert (H : HashFn) (s : BloomFilter) (v : Value) : BloomFilter :=
  { s with
    storage := (List.range s.k).foldl
      (fun st i => st.set (probe H s v i) true) s.storage }

/-- `bloom.rs::BloomFilter::lookup`. -/
def lookup (H : HashFn) (s : BloomFilter) (v : Value) : Bool :=
  (List.range s.k).all fun i => s.storage[probe H s v i]? != some false

/-- `bloom.rs::BloomFilter::get_size`. -/
def get_size (s : BloomFilter) : ℕ :=
  s.storage.length

/-- Structural invariant established by `new`. -/
def WF (s : BloomFilter) : Prop :=
  1 ≤ s.m ∧ s.storage.length = s.m

end BloomFilter

/-- `bloom.rs::PartitionedBloomFilter`. -/
structure PartitionedBloomFilter where
  m : ℕ
  k : ℕ
  partition_size : ℕ
  partitions : List (List Bool)
deriving DecidableEq

namespace PartitionedBloomFilter

/-- `bloom.rs::PartitionedBloomFilter::calculate_m` (textual copy). -/
noncomputable def calculate_m (f : ℝ) (n : ℕ) : ℕ :=
  (-⌈Real.log f * (n : ℝ) / Real.log 2 ^ 2⌉).toNat

/-- `bloom.rs::PartitionedBloomFilter::calculate_k` (textual copy). -/
noncomputable def calculate_k (m n : ℕ) : ℕ :=
  (⌈((m / n : ℕ) : ℝ) * Real.log 2⌉).toNat

/-- `bloom.rs::PartitionedBloomFilter::new`: `partition_size = m / k`, and
`k` copies of an all-zero partition of that size.  `none` models the
division-by-zero panics: `calculate_k` at `n = 0`, and `m / k` at `k = 0`. -/
noncomputable def new (n : ℕ) (f : ℝ) : Option PartitionedBloomFilter :=
  if n = 0 then none
  else if calculate_k (calculate_m f n) n = 0 then none
  else some
    { m := calculate_m f n
      k := calculate_k (calculate_m f n) n
      partition_size := calculate_m f n / calculate_k (calculate_m f n) n
      partitions := List.replicate (calculate_k (calculate_m f n) n)
        (List.replicate (calculate_m f n / calculate_k (calculate_m f n) n)
          false) }

/-- Probe index: both hashes are reduced modulo `partition_size`, not `m`. -/
def probe (H : HashFn) (s : PartitionedBloomFilter) (v : Value) (i : ℕ) : ℕ :=
  kmIdx H v s.partition_size i

/-- `bloom.rs::PartitionedBloomFilter::insert`: probe `i` sets one bit in
partition `i` (`self.partitions[i].set(idx, true)`). -/
def insert (H : HashFn) (s : PartitionedBloomFilter) (v : Value) :
    PartitionedBloomFilter :=
  { s with
    partitions := (List.range s.k).foldl
      (fun ps i => ps.set i ((ps[i]?.getD []).set (probe H s v i) true))
      s.partitions }

/-- `bloom.rs::PartitionedBloomFilter::lookup`: true iff no probed bit of
any partition reads `Some(false)`. -/
def lookup (H : HashFn) (s : PartitionedBloomFilter) (v : Value) : Bool :=
  (List.range s.k).all fun i =>
    (s.partitions[i]?.getD [])[probe H s v i]? != some false

/-- `bloom.rs::PartitionedBloomFilter::get_size`: the number of partitions. -/
def get_size (s : PartitionedBloomFilter) : ℕ :=
  s.partitions.length

/-- Structural invariant established by `new`: nonempty partitions, one
partition per hash function, all of length `partition_size`. -/
def WF (s : PartitionedBloomFilter) : Prop :=
  1 ≤ s.partition_size ∧ s.partitions.length = s.k ∧
    ∀ p ∈ s.partitions, p.length = s.partition_size

end PartitionedBloomFilter

end Bloom

namespace Lib

/-- `lib.rs::BloomFilter` (the crate-root variant). -/
structure BloomFilter where
  n : ℕ
  f : ℝ
  m : ℕ
  k : ℕ
  storage : List Bool

namespace BloomFilter

/-- `lib.rs::BloomFilter::calculate_m` (textual copy of the same formula). -/
noncomputable def calculate_m (f : ℝ) (n : ℕ) : ℕ :=
  (-⌈Real.log f * (n : ℝ) / Real.log 2 ^ 2⌉).toNat

/-- `lib.rs::BloomFilter::calculate_k` (textual copy of the same formula). -/
noncomputable def calculate_k (m n : ℕ) : ℕ :=
  (⌈((m / n : ℕ) : ℝ) * Real.log 2⌉).toNat

/-- `lib.rs::BloomFilter::new`. -/
noncomputable def new (n : ℕ) (f : ℝ) : Option BloomFilter :=
  if n = 0 then none
  else some
    { n := n
      f := f
      m := calculate_m f n
      k := calculate_k (calculate_m f n) n
      storage := List.replicate (calculate_m f n) false }

/-- The `i`-th probe index of `lib.rs`'s insert/lookup: one fresh hash
evaluation per probe, `xxh3_64_with_seed(value, i) % self.m`. -/
def probe (H : HashFn) (s : BloomFilter) (v : Value) (i : ℕ) : ℕ :=
  H v i % s.m

/-- `lib.rs::BloomFilter::insert`. -/
def insert (H : HashFn) (s : BloomFilter) (v : Value) : BloomFilter :=
  { s with
    storage := (List.range s.k).foldl
      (fun st i => st.set (probe H s v i) true) s.storage }

/-- `lib.rs::BloomFilter::lookup`. -/
def lookup (H : HashFn) (s : BloomFilter) (v : Value) : Bool :=
  (List.range s.k).all fun i => s.storage[probe H s v i]? != some false

end BloomFilter

end Lib

/-- A simple concrete hash family used in closed instances: the hash of any
value is its seed.  (Any `HashFn` describes a possible hash function; the
theorems are parametric in it.) -/
def idHash : HashFn := fun _ seed => seed

/-- A concrete hash family whose values are large 62-bit numbers. -/
def bigHash : HashFn := fun _ _ => 2 ^ 62 - 1

/-! ### Generic lemmas about the bit-setting folds -/

theorem foldl_set_length (g : ℕ → ℕ) (L : List ℕ) (st : List Bool) :
    (L.foldl (fun st i => st.set (g i) true) st).length = st.length := by
  induction L generalizing st with
  | nil => rfl
  | cons a t ih => simp [List.foldl_cons, ih, List.length_set]

theorem foldl_set_keeps (g : ℕ → ℕ) (L : List ℕ) (st : List Bool) (p : ℕ)
    (h : st[p]? = some true) :
    (L.foldl (fun st i => st.set (g i) true) st)[p]? = some true := by
  induction L generalizing st with
  | nil => exact h
  | cons a t ih =>
    rw [List.foldl_cons]
    refine ih _ ?_
    by_cases hpa : g a = p
    · subst hpa
      have hlt : g a < st.length := by
        by_contra hge
        rw [List.getElem?_eq_none (by omega)] at h
        exact Option.noConfusion h
      simpa using List.getElem?_set_eq_of_lt true hlt
    · rw [List.getElem?_set_ne hpa]
      exact h

theorem foldl_set_hits (g : ℕ → ℕ) (L : List ℕ) (st : List Bool) (j : ℕ)
    (hj : j ∈ L) (hlt : g j < st.length) :
    (L.foldl (fun st i => st.set (g i) true) st)[g j]? = some true := by
  induction L generalizing st with
  | nil => cases hj
  | cons a t ih =>
    rw [List.foldl_cons]
    rcases List.mem_cons.mp hj with rfl | hmem
    · exact foldl_set_keeps g t _ _ (by simpa using List.getElem?_set_eq_of_lt true hlt)
    · exact ih _ hmem (by rwa [List.length_set])

theorem foldl_set_noop (g : ℕ → ℕ) (L : List ℕ) (st : List Bool)
    (h : ∀ i ∈ L, st[g i]? = some true) :
    L.foldl (fun st i => st.set (g i) true) st = st := by
  induction L with
  | nil => rfl
  | cons a t ih =>
    have hset : st.set (g a) true = st := by
      apply List.ext_getElem?
      intro q
      by_cases hq : g a = q
      · subst hq
        have hsome := h a (List.mem_cons_self a t)
        have hlt : g a < st.length := by
          by_contra hge
          rw [List.getElem?_eq_none (by omega)] at hsome
          exact Option.noConfusion hsome
        rw [List.getElem?_set_eq_of_lt true hlt, hsome]
      · exact List.getElem?_set_ne hq
    rw [List.foldl_cons, hset]
    exact ih fun i hi => h i (List.mem_cons_of_mem a hi)

/-! ### Generic lemmas about the partitioned fold -/

theorem pfold_length (g : ℕ → ℕ) (K : ℕ) (ps : List (List Bool)) :
    ((List.range K).foldl
      (fun ps i => ps.set i ((ps[i]?.getD []).set (g i) true)) ps).length
      = ps.length := by
  induction K with
  | zero => rfl
  | succ K ih =>
    rw [List.range_succ, List.foldl_append, List.foldl_cons, List.foldl_nil,
      List.length_set]
    exact ih

theorem pfold_above (g : ℕ → ℕ) (K : ℕ) (ps : List (List Bool)) (j : ℕ)
    (h : K ≤ j) :
    ((List.range K).foldl
      (fun ps i => ps.set i ((ps[i]?.getD []).set (g i) true)) ps)[j]?
      = ps[j]? := by
  induction K with
  | zero => rfl
  | succ K ih =>
    rw [List.range_succ, List.foldl_append, List.foldl_cons, List.foldl_nil,
      List.getElem?_set_ne (by omega)]
    exact ih (by omega)

theorem pfold_at (g : ℕ → ℕ) (K : ℕ) (ps : List (List Bool)) (j : ℕ)
    (hj : j < K) (hK : K ≤ ps.length) :
    ((List.range K).foldl
      (fun ps i => ps.set i ((ps[i]?.getD []).set (g i) true)) ps)[j]?
      = some ((ps[j]?.getD []).set (g j) true) := by
  induction K with
  | zero => omega
  | succ K ih =>
    rw [List.range_succ, List.foldl_append, List.foldl_cons, List.foldl_nil]
    rcases Nat.lt_succ_iff_lt_or_eq.mp hj with hlt | rfl
    · rw [List.getElem?_set_ne (by omega)]
      exact ih hlt (by omega)
    · rw [pfold_above g j ps j le_rfl,
        List.getElem?_set_eq_of_lt _ (by rw [pfold_length]; omega)]

/-! ### Classical filter: invariants and bit behaviour -/

namespace ClassicalBloomFilter

theorem insert_m (H : HashFn) (s : ClassicalBloomFilter) (v : Value) :
    (insert H s v).m = s.m := rfl

theorem insert_k (H : HashFn) (s : ClassicalBloomFilter) (v : Value) :
    (insert H s v).k = s.k := rfl

theorem insert_length (H : HashFn) (s : ClassicalBloomFilter) (v : Value) :
    (insert H s v).storage.length = s.storage.length :=
  foldl_set_length _ _ _

theorem probe_lt (H : HashFn) (s : ClassicalBloomFilter) (v : Value) (i : ℕ)
    (hm : 1 ≤ s.m) : probe H s v i < s.m :=
  Nat.mod_lt _ (by omega)

theorem insert_WF (H : HashFn) (s : ClassicalBloomFilter) (v : Value)
    (h : s.WF) : (insert H s v).WF :=
  ⟨h.1, by rw [insert_length]; exact h.2⟩

theorem insert_sets (H : HashFn) (s : ClassicalBloomFilter) (v : Value)
    (h : s.WF) (i : ℕ) (hi : i < s.k) :
    (insert H s v).storage[probe H s v i]? = some true :=
  foldl_set_hits (probe H s v) (List.range s.k) s.storage i
    (List.mem_range.mpr hi) (by rw [h.2]; exact probe_lt H s v i h.1)

theorem insert_keeps (H : HashFn) (s : ClassicalBloomFilter) (v : Value)
    (p : ℕ) (h : s.storage[p]? = some true) :
    (insert H s v).storage[p]? = some true :=
  foldl_set_keeps (probe H s v) (List.range s.k) s.storage p h

/-- Any sequence of further inserts preserves the parameters, the
invariant, and every bit already set. -/
theorem runs_keep (H : HashFn) (rest : List Value) (s : ClassicalBloomFilter)
    (hWF : s.WF) (p : ℕ) (hp : s.storage[p]? = some true) :
    (rest.foldl (insert H) s).m = s.m ∧ (rest.foldl (insert H) s).k = s.k ∧
      (rest.foldl (insert H) s).WF ∧
      (rest.foldl (insert H) s).storage[p]? = some true := by
  induction rest generalizing s with
  | nil => exact ⟨rfl, rfl, hWF, hp⟩
  | cons w t ih =>
    rw [List.foldl_cons]
    exact ih (insert H s w) (insert_WF H s w hWF) (insert_keeps H s w p hp)

theorem lookup_true_of_probes (H : HashFn) (s : ClassicalBloomFilter)
    (v : Value) (h : ∀ i < s.k, s.storage[probe H s v i]? = some true) :
    lookup H s v = true := by
  unfold lookup
  rw [List.all_eq_true]
  intro i hi
  rw [h i (List.mem_range.mp hi)]
  rfl

end ClassicalBloomFilter

/-! ### Partitioned filter: invariants and bit behaviour -/

namespace Bloom.PartitionedBloomFilter

theorem insert_m_p (H : HashFn) (s : PartitionedBloomFilter) (v : Value) :
    (insert H s v).m = s.m := rfl

theorem insert_k_p (H : HashFn) (s : PartitionedBloomFilter) (v : Value) :
    (insert H s v).k = s.k := rfl

theorem insert_ps (H : HashFn) (s : PartitionedBloomFilter) (v : Value) :
    (insert H s v).partition_size = s.partition_size := rfl

theorem insert_nparts (H : HashFn) (s : PartitionedBloomFilter) (v : Value) :
    (insert H s v).partitions.length = s.partitions.length :=
  pfold_length _ _ _

theorem probe_lt_p (H : HashFn) (s : PartitionedBloomFilter) (v : Value) (i : ℕ)
    (hps : 1 ≤ s.partition_size) : probe H s v i < s.partition_size :=
  Nat.mod_lt _ (by omega)

/-- Insert rewrites partition `j` (for `j < k`) to the old partition with
its single probe position set, and touches nothing else. -/
theorem insert_char (H : HashFn) (s : PartitionedBloomFilter) (v : Value)
    (h : s.WF) (j : ℕ) (hj : j < s.k) :
    (insert H s v).partitions[j]?
      = some ((s.partitions[j]?.getD []).set (probe H s v j) true) :=
  pfold_at (probe H s v) s.k s.partitions j hj (le_of_eq h.2.1.symm)

theorem insert_above (H : HashFn) (s : PartitionedBloomFilter) (v : Value)
    (j : ℕ) (hj : s.k ≤ j) :
    (insert H s v).partitions[j]? = s.partitions[j]? :=
  pfold_above (probe H s v) s.k s.partitions j hj

theorem partition_len (s : PartitionedBloomFilter) (h : s.WF) (j : ℕ)
    (hj : j < s.k) :
    (s.partitions[j]?.getD []).length = s.partition_size := by
  have hjl : j < s.partitions.length := by rw [h.2.1]; exact hj
  rw [List.getElem?_eq_getElem hjl]
  exact h.2.2 _ (List.getElem?_mem (List.getElem?_eq_getElem hjl))

theorem insert_WF_p (H : HashFn) (s : PartitionedBloomFilter) (v : Value)
    (h : s.WF) : (insert H s v).WF := by
  refine ⟨h.1, by rw [insert_nparts]; exact h.2.1, ?_⟩
  intro p hp
  obtain ⟨j, hj⟩ := List.getElem?_of_mem hp
  have hlen : j < (insert H s v).partitions.length := by
    rcases List.getElem?_eq_some.mp hj with ⟨hl, _⟩
    exact hl
  have hjk : j < s.k := by
    rw [insert_nparts, h.2.1] at hlen
    exact hlen
  rw [insert_char H s v h j hjk] at hj
  cases hj
  rw [List.length_set]
  exact partition_len s h j hjk

theorem insert_sets_p (H : HashFn) (s : PartitionedBloomFilter) (v : Value)
    (h : s.WF) (j : ℕ) (hj : j < s.k) :
    ((insert H s v).partitions[j]?.getD [])[probe H s v j]? = some true := by
  rw [insert_char H s v h j hj]
  simp only [Option.getD_some]
  exact List.getElem?_set_eq_of_lt true
    (by rw [partition_len s h j hj]; exact probe_lt_p H s v j h.1)

theorem insert_keeps_p (H : HashFn) (s : PartitionedBloomFilter) (v : Value)
    (h : s.WF) (j p : ℕ)
    (hp : (s.partitions[j]?.getD [])[p]? = some true) :
    ((insert H s v).partitions[j]?.getD [])[p]? = some true := by
  rcases Nat.lt_or_ge j s.k with hj | hj
  · rw [insert_char H s v h j hj]
    simp only [Option.getD_some]
    by_cases hpp : probe H s v j = p
    · subst hpp
      have hlt : probe H s v j < (s.partitions[j]?.getD []).length := by
        by_contra hge
        rw [List.getElem?_eq_none (by omega)] at hp
        exact Option.noConfusion hp
      simpa using List.getElem?_set_eq_of_lt true hlt
    · rw [List.getElem?_set_ne hpp]
      exact hp
  · rw [insert_above H s v j hj]
    exact hp

/-- Any sequence of further inserts preserves the parameters, the
invariant, and every bit already set in every partition. -/
theorem runs_keep_p (H : HashFn) (rest : List Value)
    (s : PartitionedBloomFilter) (hWF : s.WF) (j p : ℕ)
    (hp : (s.partitions[j]?.getD [])[p]? = some true) :
    (rest.foldl (insert H) s).k = s.k ∧
      (rest.foldl (insert H) s).partition_size = s.partition_size ∧
      (rest.foldl (insert H) s).WF ∧
      ((rest.foldl (insert H) s).partitions[j]?.getD [])[p]? = some true := by
  induction rest generalizing s with
  | nil => exact ⟨rfl, rfl, hWF, hp⟩
  | cons w t ih =>
    rw [List.foldl_cons]
    exact ih (insert H s w) (insert_WF_p H s w hWF) (insert_keeps_p H s w hWF j p hp)

theorem lookup_true_of_probes_p (H : HashFn) (s : PartitionedBloomFilter)
    (v : Value)
    (h : ∀ i < s.k, (s.partitions[i]?.getD [])[probe H s v i]? = some true) :
    lookup H s v = true := by
  unfold lookup
  rw [List.all_eq_true]
  intro i hi
  rw [h i (List.mem_range.mp hi)]
  rfl

end Bloom.PartitionedBloomFilter

/-! ### Numeric facts about the parameter formulas -/

theorem log_ratio_upper : Real.log (128 / 125) ≤ 3 / 125 := by
  have h := Real.log_le_sub_one_of_pos (x := (128 : ℝ) / 125) (by norm_num)
  linarith

theorem log_ratio_lower : 3 / 128 ≤ Real.log (128 / 125) := by
  have h := Real.log_le_sub_one_of_pos (x := (125 : ℝ) / 128) (by norm_num)
  have hinv : Real.log ((125 : ℝ) / 128) = -Real.log (128 / 125) := by
    rw [show ((125 : ℝ) / 128) = ((128 : ℝ) / 125)⁻¹ by norm_num, Real.log_inv]
  linarith

theorem three_log_ten : 3 * Real.log 10 = 10 * Real.log 2 - Real.log (128 / 125) := by
  have h1 : Real.log 1000 = 3 * Real.log 10 := by
    rw [show (1000 : ℝ) = 10 ^ 3 by norm_num, Real.log_pow]
    push_cast
    ring
  have h2 : Real.log 1024 = 10 * Real.log 2 := by
    rw [show (1024 : ℝ) = 2 ^ 10 by norm_num, Real.log_pow]
    push_cast
    ring
  have h3 : Real.log 1000 = Real.log 1024 - Real.log (128 / 125) := by
    rw [← Real.log_div (by norm_num) (by norm_num)]
    norm_num
  linarith

theorem twenty_log_ten_bounds :
    95 * Real.log 2 ^ 2 < 20 * Real.log 10 ∧
      20 * Real.log 10 < 96 * Real.log 2 ^ 2 := by
  have ha := Real.log_two_gt_d9
  have hb := Real.log_two_lt_d9
  have hu := log_ratio_upper
  have hl := log_ratio_lower
  have ht := three_log_ten
  constructor
  · nlinarith [mul_pos (sub_pos.mpr hb) (sub_pos.mpr ha)]
  · nlinarith [sq_nonneg (Real.log 2 - 0.6931471803)]

theorem log_two_sq_pos : (0 : ℝ) < Real.log 2 ^ 2 :=
  pow_pos (Real.log_pos (by norm_num)) 2

theorem one_le_log_ten : (1 : ℝ) ≤ Real.log 10 :=
  (Real.le_log_iff_exp_le (by norm_num)).mpr
    (le_of_lt (lt_of_lt_of_le Real.exp_one_lt_d9 (by norm_num)))

theorem log_inv_hundred : Real.log ((1 : ℝ) / 100) = -(2 * Real.log 10) := by
  rw [show ((1 : ℝ) / 100) = ((100 : ℝ))⁻¹ by norm_num, Real.log_inv,
    show (100 : ℝ) = 10 ^ 2 by norm_num, Real.log_pow]
  push_cast
  ring

theorem floor_twenty_log_ten : ⌊20 * Real.log 10 / Real.log 2 ^ 2⌋ = 95 := by
  have h := twenty_log_ten_bounds
  have hp := log_two_sq_pos
  rw [Int.floor_eq_iff]
  constructor
  · push_cast
    rw [le_div_iff₀ hp]
    linarith [h.1]
  · push_cast
    rw [div_lt_iff₀ hp]
    linarith [h.2]

theorem calc_m_001_10 : Filter.calculate_m (1 / 100) 10 = 95 := by
  unfold Filter.calculate_m
  have hx : Real.log ((1 : ℝ) / 100) * ((10 : ℕ) : ℝ) / Real.log 2 ^ 2
      = -(20 * Real.log 10 / Real.log 2 ^ 2) := by
    rw [log_inv_hundred]
    push_cast
    ring
  rw [hx, Int.ceil_neg, floor_twenty_log_ten]
  decide

theorem ceil_formula_96 :
    ⌈-((10 : ℝ) * Real.log (1 / 100)) / Real.log 2 ^ 2⌉ = 96 := by
  have h := twenty_log_ten_bounds
  have hp := log_two_sq_pos
  have hv : -((10 : ℝ) * Real.log (1 / 100)) / Real.log 2 ^ 2
      = 20 * Real.log 10 / Real.log 2 ^ 2 := by
    rw [log_inv_hundred]
    ring
  rw [hv, Int.ceil_eq_iff]
  constructor
  · push_cast
    rw [lt_div_iff₀ hp]
    linarith [h.1]
  · push_cast
    rw [div_le_iff₀ hp]
    linarith [h.2]

theorem calc_k_95_10 : Filter.calculate_k 95 10 = 7 := by
  unfold Filter.calculate_k
  have h9 : ((95 / 10 : ℕ) : ℝ) = 9 := by norm_num
  have hceil : ⌈(9 : ℝ) * Real.log 2⌉ = 7 := by
    rw [Int.ceil_eq_iff]
    constructor
    · push_cast
      nlinarith [Real.log_two_gt_d9]
    · push_cast
      nlinarith [Real.log_two_lt_d9]
  rw [h9, hceil]
  rfl

theorem classical_new_001_10 :
    ClassicalBloomFilter.new 10 (1 / 100)
      = some ⟨95, 7, List.replicate 95 false⟩ := by
  unfold ClassicalBloomFilter.new
  rw [if_neg (by norm_num), calc_m_001_10, calc_k_95_10]

theorem partitioned_new_001_10 :
    Bloom.PartitionedBloomFilter.new 10 (1 / 100)
      = some ⟨95, 7, 13, List.replicate 7 (List.replicate 13 false)⟩ := by
  unfold Bloom.PartitionedBloomFilter.new
  have hm : Bloom.PartitionedBloomFilter.calculate_m (1 / 100) 10 = 95 :=
    calc_m_001_10
  have hk : Bloom.PartitionedBloomFilter.calculate_k 95 10 = 7 :=
    calc_k_95_10
  rw [if_neg (by norm_num), hm, hk, if_neg (by norm_num)]

theorem calc_m_099_1 : Filter.calculate_m (99 / 100) 1 = 0 := by
  unfold Filter.calculate_m
  have hp := log_two_sq_pos
  have hlog_neg : Real.log ((99 : ℝ) / 100) < 0 :=
    Real.log_neg (by norm_num) (by norm_num)
  have h1 : Real.log ((100 : ℝ) / 99) ≤ 1 / 99 := by
    have := Real.log_le_sub_one_of_pos (x := (100 : ℝ) / 99) (by norm_num)
    linarith
  have h2 : Real.log ((99 : ℝ) / 100) = -Real.log ((100 : ℝ) / 99) := by
    rw [show ((99 : ℝ) / 100) = ((100 : ℝ) / 99)⁻¹ by norm_num, Real.log_inv]
  have h3 : (1 : ℝ) / 99 < Real.log 2 ^ 2 := by
    nlinarith [Real.log_two_gt_d9]
  have hx : Real.log ((99 : ℝ) / 100) * ((1 : ℕ) : ℝ) / Real.log 2 ^ 2
      = Real.log ((99 : ℝ) / 100) / Real.log 2 ^ 2 := by
    push_cast
    ring
  have hceil :
      ⌈Real.log ((99 : ℝ) / 100) * ((1 : ℕ) : ℝ) / Real.log 2 ^ 2⌉ = 0 := by
    rw [hx, Int.ceil_eq_zero_iff, Set.mem_Ioc]
    constructor
    · rw [neg_lt, ← neg_div, div_lt_iff₀ hp]
      nlinarith
    · exact le_of_lt (div_neg_of_neg_of_pos hlog_neg hp)
  rw [hceil]
  rfl

theorem calc_k_zero_left (n : ℕ) : Filter.calculate_k 0 n = 0 := by
  unfold Filter.calculate_k
  simp

theorem partitioned_new_099_1 :
    Bloom.PartitionedBloomFilter.new 1 (99 / 100) = none := by
  unfold Bloom.PartitionedBloomFilter.new
  have hm : Bloom.PartitionedBloomFilter.calculate_m (99 / 100) 1 = 0 :=
    calc_m_099_1
  have hk : Bloom.PartitionedBloomFilter.calculate_k 0 1 = 0 :=
    calc_k_zero_left 1
  rw [if_neg (by norm_num), hm, hk, if_pos rfl]

theorem calc_m_zero_of_one_le (f : ℝ) (n : ℕ) (hf : 1 ≤ f) :
    Filter.calculate_m f n = 0 := by
  unfold Filter.calculate_m
  have hx : (0 : ℝ) ≤ Real.log f * (n : ℝ) / Real.log 2 ^ 2 :=
    div_nonneg (mul_nonneg (Real.log_nonneg hf) (Nat.cast_nonneg n))
      (le_of_lt log_two_sq_pos)
  have hceil := Int.ceil_nonneg hx
  exact Int.toNat_of_nonpos (by omega)

theorem classical_runs_mk (H : HashFn) (rest : List Value)
    (s : ClassicalBloomFilter) :
    (rest.foldl (ClassicalBloomFilter.insert H) s).m = s.m ∧
      (rest.foldl (ClassicalBloomFilter.insert H) s).k = s.k := by
  induction rest generalizing s with
  | nil => exact ⟨rfl, rfl⟩
  | cons w t ih =>
    rw [List.foldl_cons]
    exact ih (ClassicalBloomFilter.insert H s w)

theorem partitioned_runs_param (H : HashFn) (rest : List Value)
    (s : Bloom.PartitionedBloomFilter) :
    (rest.foldl (Bloom.PartitionedBloomFilter.insert H) s).partition_size
        = s.partition_size ∧
      (rest.foldl (Bloom.PartitionedBloomFilter.insert H) s).k = s.k := by
  induction rest generalizing s with
  | nil => exact ⟨rfl, rfl⟩
  | cons w t ih =>
    rw [List.foldl_cons]
    exact ih (Bloom.PartitionedBloomFilter.insert H s w)

/-- C1: for every classical or partitioned filter satisfying the structural
invariant (in particular, bit-array length `m`, respectively
`partition_size`, at least 1), once `insert v` has happened, `lookup v`
returns `true` after any further sequence of inserts. -/
theorem no_false_negatives :
    (∀ (H : HashFn) (s : ClassicalBloomFilter) (v : Value)
        (rest : List Value), s.WF →
        ClassicalBloomFilter.lookup H
          (rest.foldl (ClassicalBloomFilter.insert H)
            (ClassicalBloomFilter.insert H s v)) v = true) ∧
    (∀ (H : HashFn) (s : Bloom.PartitionedBloomFilter) (v : Value)
        (rest : List Value), s.WF →
        Bloom.PartitionedBloomFilter.lookup H
          (rest.foldl (Bloom.PartitionedBloomFilter.insert H)
            (Bloom.PartitionedBloomFilter.insert H s v)) v = true) := by
  constructor
  · intro H s v rest hWF
    have hWF₁ := ClassicalBloomFilter.insert_WF H s v hWF
    apply ClassicalBloomFilter.lookup_true_of_probes
    have hmk := classical_runs_mk H rest (ClassicalBloomFilter.insert H s v)
    intro i hi
    have hik : i < s.k := by
      rw [hmk.2] at hi
      exact hi
    have hp₁ := ClassicalBloomFilter.insert_sets H s v hWF i hik
    have h₂ := (ClassicalBloomFilter.runs_keep H rest
      (ClassicalBloomFilter.insert H s v) hWF₁ _ hp₁).2.2.2
    have hpe : ClassicalBloomFilter.probe H
        (rest.foldl (ClassicalBloomFilter.insert H)
          (ClassicalBloomFilter.insert H s v)) v i
        = ClassicalBloomFilter.probe H s v i := by
      unfold ClassicalBloomFilter.probe
      rw [hmk.1]
      exact rfl
    rw [hpe]
    exact h₂
  · intro H s v rest hWF
    have hWF₁ := Bloom.PartitionedBloomFilter.insert_WF_p H s v hWF
    apply Bloom.PartitionedBloomFilter.lookup_true_of_probes_p
    have hpar := partitioned_runs_param H rest
      (Bloom.PartitionedBloomFilter.insert H s v)
    intro i hi
    have hik : i < s.k := by
      rw [hpar.2] at hi
      exact hi
    have hp₁ := Bloom.PartitionedBloomFilter.insert_sets_p H s v hWF i hik
    have h₂ := (Bloom.PartitionedBloomFilter.runs_keep_p H rest
      (Bloom.PartitionedBloomFilter.insert H s v) hWF₁ i _ hp₁).2.2.2
    have hpe : Bloom.PartitionedBloomFilter.probe H
        (rest.foldl (Bloom.PartitionedBloomFilter.insert H)
          (Bloom.PartitionedBloomFilter.insert H s v)) v i
        = Bloom.PartitionedBloomFilter.probe H s v i := by
      unfold Bloom.PartitionedBloomFilter.probe
      rw [hpar.1]
      exact rfl
    rw [hpe]
    exact h₂

/-- Witness for C1 at concrete inputs. -/
theorem no_false_negatives_witness :
    ClassicalBloomFilter.lookup idHash
      ([[3]].foldl (ClassicalBloomFilter.insert idHash)
        (ClassicalBloomFilter.insert idHash
          ⟨5, 2, List.replicate 5 false⟩ [1, 2])) [1, 2] = true ∧
    Bloom.PartitionedBloomFilter.lookup idHash
      ([[3]].foldl (Bloom.PartitionedBloomFilter.insert idHash)
        (Bloom.PartitionedBloomFilter.insert idHash
          ⟨10, 2, 5, List.replicate 2 (List.replicate 5 false)⟩ [1, 2]))
      [1, 2] = true :=
  ⟨no_false_negatives.1 idHash ⟨5, 2, List.replicate 5 false⟩ [1, 2] [[3]]
      ⟨by decide, by decide⟩,
    no_false_negatives.2 idHash
      ⟨10, 2, 5, List.replicate 2 (List.replicate 5 false)⟩ [1, 2] [[3]]
      ⟨by decide, by decide, by decide⟩⟩

/-- C8: insert is idempotent on both variants: on any state satisfying the
structural invariant (bit-array length at least 1), inserting the same
value twice in a row produces exactly the state of inserting it once. -/
theorem insert_idempotent :
    (∀ (H : HashFn) (s : ClassicalBloomFilter) (v : Value), s.WF →
        ClassicalBloomFilter.insert H (ClassicalBloomFilter.insert H s v) v
          = ClassicalBloomFilter.insert H s v) ∧
    (∀ (H : HashFn) (s : Bloom.PartitionedBloomFilter) (v : Value), s.WF →
        Bloom.PartitionedBloomFilter.insert H
          (Bloom.PartitionedBloomFilter.insert H s v) v
          = Bloom.PartitionedBloomFilter.insert H s v) := by
  constructor
  · intro H s v hWF
    have hnoop : (List.range s.k).foldl
        (fun st i => st.set (ClassicalBloomFilter.probe H s v i) true)
        (ClassicalBloomFilter.insert H s v).storage
        = (ClassicalBloomFilter.insert H s v).storage :=
      foldl_set_noop _ _ _ fun i hi =>
        ClassicalBloomFilter.insert_sets H s v hWF i (List.mem_range.mp hi)
    have hrfl : ClassicalBloomFilter.insert H
        (ClassicalBloomFilter.insert H s v) v
        = { ClassicalBloomFilter.insert H s v with
            storage := (List.range s.k).foldl
              (fun st i => st.set (ClassicalBloomFilter.probe H s v i) true)
              (ClassicalBloomFilter.insert H s v).storage } := rfl
    rw [hrfl, hnoop]
  · intro H s v hWF
    have hWF₁ := Bloom.PartitionedBloomFilter.insert_WF_p H s v hWF
    have hparts : (Bloom.PartitionedBloomFilter.insert H
        (Bloom.PartitionedBloomFilter.insert H s v) v).partitions
        = (Bloom.PartitionedBloomFilter.insert H s v).partitions := by
      apply List.ext_getElem?
      intro j
      rcases Nat.lt_or_ge j s.k with hj | hj
      · rw [Bloom.PartitionedBloomFilter.insert_char H
          (Bloom.PartitionedBloomFilter.insert H s v) v hWF₁ j hj,
          Bloom.PartitionedBloomFilter.insert_char H s v hWF j hj]
        have hpe : Bloom.PartitionedBloomFilter.probe H
            (Bloom.PartitionedBloomFilter.insert H s v) v j
            = Bloom.PartitionedBloomFilter.probe H s v j := rfl
        rw [hpe]
        simp [List.set_set]
      · rw [Bloom.PartitionedBloomFilter.insert_above H
          (Bloom.PartitionedBloomFilter.insert H s v) v j hj,
          Bloom.PartitionedBloomFilter.insert_above H s v j hj]
    have hrfl : Bloom.PartitionedBloomFilter.insert H
        (Bloom.PartitionedBloomFilter.insert H s v) v
        = { Bloom.PartitionedBloomFilter.insert H s v with
            partitions := (Bloom.PartitionedBloomFilter.insert H
              (Bloom.PartitionedBloomFilter.insert H s v) v).partitions } :=
      rfl
    rw [hrfl, hparts]

/-- Witness for C8 at concrete inputs. -/
theorem insert_idempotent_witness :
    ClassicalBloomFilter.insert idHash
      (ClassicalBloomFilter.insert idHash ⟨5, 2, List.replicate 5 false⟩ [7])
      [7]
      = ClassicalBloomFilter.insert idHash ⟨5, 2, List.replicate 5 false⟩ [7] ∧
    Bloom.PartitionedBloomFilter.insert idHash
      (Bloom.PartitionedBloomFilter.insert idHash
        ⟨10, 2, 5, List.replicate 2 (List.replicate 5 false)⟩ [7]) [7]
      = Bloom.PartitionedBloomFilter.insert idHash
        ⟨10, 2, 5, List.replicate 2 (List.replicate 5 false)⟩ [7] :=
  ⟨insert_idempotent.1 idHash ⟨5, 2, List.replicate 5 false⟩ [7]
      ⟨by decide, by decide⟩,
    insert_idempotent.2 idHash
      ⟨10, 2, 5, List.replicate 2 (List.replicate 5 false)⟩ [7]
      ⟨by decide, by decide, by decide⟩⟩

/-- C7: for the partitioned filter, `partition_size = m / k` (truncating),
probes reduce both hashes modulo `partition_size`, probe `i` of an insert
rewrites only partition `i` — to the old partition with one position set —
and partitions at any other index are untouched. -/
theorem partitioned_structure_and_frame :
    (∀ (n : ℕ) (f : ℝ) (s : Bloom.PartitionedBloomFilter),
        Bloom.PartitionedBloomFilter.new n f = some s →
        s.partition_size = s.m / s.k) ∧
    (∀ (H : HashFn) (s : Bloom.PartitionedBloomFilter) (v : Value) (i : ℕ),
        Bloom.PartitionedBloomFilter.probe H s v i
          = (H v 0 % s.partition_size + i * (H v 64 % s.partition_size))
            % U64 % s.partition_size) ∧
    (∀ (H : HashFn) (s : Bloom.PartitionedBloomFilter) (v : Value) (j : ℕ),
        s.WF → j < s.k →
        (Bloom.PartitionedBloomFilter.insert H s v).partitions[j]?
          = some ((s.partitions[j]?.getD []).set
              (Bloom.PartitionedBloomFilter.probe H s v j) true)) ∧
    (∀ (H : HashFn) (s : Bloom.PartitionedBloomFilter) (v : Value) (j : ℕ),
        s.k ≤ j →
        (Bloom.PartitionedBloomFilter.insert H s v).partitions[j]?
          = s.partitions[j]?) := by
  refine ⟨?_, fun H s v i => rfl,
    fun H s v j h hj => Bloom.PartitionedBloomFilter.insert_char H s v h j hj,
    fun H s v j hj => Bloom.PartitionedBloomFilter.insert_above H s v j hj⟩
  intro n f s h
  unfold Bloom.PartitionedBloomFilter.new at h
  by_cases h0 : n = 0
  · rw [if_pos h0] at h
    exact Option.noConfusion h
  · rw [if_neg h0] at h
    by_cases hk : Bloom.PartitionedBloomFilter.calculate_k
        (Bloom.PartitionedBloomFilter.calculate_m f n) n = 0
    · rw [if_pos hk] at h
      exact Option.noConfusion h
    · rw [if_neg hk] at h
      injection h with h
      subst h
      rfl

/-- Witness for C7 at concrete inputs. -/
theorem partitioned_structure_and_frame_witness :
    (⟨95, 7, 13, List.replicate 7 (List.replicate 13 false)⟩ :
          Bloom.PartitionedBloomFilter).partition_size
        = (⟨95, 7, 13, List.replicate 7 (List.replicate 13 false)⟩ :
          Bloom.PartitionedBloomFilter).m /
          (⟨95, 7, 13, List.replicate 7 (List.replicate 13 false)⟩ :
          Bloom.PartitionedBloomFilter).k ∧
    (Bloom.PartitionedBloomFilter.insert idHash
        ⟨10, 2, 5, List.replicate 2 (List.replicate 5 false)⟩ [4]).partitions[1]?
      = some (((⟨10, 2, 5, List.replicate 2 (List.replicate 5 false)⟩ :
            Bloom.PartitionedBloomFilter).partitions[1]?.getD []).set
          (Bloom.PartitionedBloomFilter.probe idHash
            ⟨10, 2, 5, List.replicate 2 (List.replicate 5 false)⟩ [4] 1)
          true) :=
  ⟨partitioned_structure_and_frame.1 10 (1 / 100) _ partitioned_new_001_10,
    partitioned_structure_and_frame.2.2.1 idHash
      ⟨10, 2, 5, List.replicate 2 (List.replicate 5 false)⟩ [4] 1
      ⟨by decide, by decide, by decide⟩ (by decide)⟩

theorem kmSum_lt (H : HashFn) (v : Value) (M k i : ℕ) (hM : 1 ≤ M)
    (hik : i < k) (hbound : M * k ≤ U64) : kmSum H v M i < U64 := by
  have h1 : H v 0 % M < M := Nat.mod_lt _ (by omega)
  have h2 : H v 64 % M < M := Nat.mod_lt _ (by omega)
  have hs : kmSum H v M i < M + i * M := by
    unfold kmSum
    exact add_lt_add_of_lt_of_le h1 (Nat.mul_le_mul_left i (le_of_lt h2))
  calc kmSum H v M i < M + i * M := hs
    _ = (i + 1) * M := by ring
    _ ≤ k * M := Nat.mul_le_mul_right M hik
    _ = M * k := mul_comm k M
    _ ≤ U64 := hbound

theorem kmIdx_no_wrap (H : HashFn) (v : Value) (M k i : ℕ) (hM : 1 ≤ M)
    (hik : i < k) (hbound : M * k ≤ U64) :
    kmIdx H v M i = (H v 0 % M + i * (H v 64 % M)) % M := by
  unfold kmIdx
  rw [Nat.mod_eq_of_lt (kmSum_lt H v M k i hM hik hbound)]
  rfl

/-- C5 (amended): the `bloom.rs`, classical and partitioned variants derive
the `i`-th probe index from exactly two hash evaluations with the fixed
seeds 0 and 64, as `((h1 mod M) + i·(h2 mod M)) mod M` (exactly, whenever
`M · k` fits in `u64`; otherwise the `u64` sum first wraps).  The `lib.rs`
variant instead evaluates the hash once per probe, with seed `i`. -/
theorem probe_derivation :
    (∀ (H : HashFn) (s : ClassicalBloomFilter) (v : Value) (i : ℕ),
        1 ≤ s.m → i < s.k → s.m * s.k ≤ U64 →
        ClassicalBloomFilter.probe H s v i
          = (H v 0 % s.m + i * (H v 64 % s.m)) % s.m) ∧
    (∀ (H : HashFn) (s : Bloom.BloomFilter) (v : Value) (i : ℕ),
        1 ≤ s.m → i < s.k → s.m * s.k ≤ U64 →
        Bloom.BloomFilter.probe H s v i
          = (H v 0 % s.m + i * (H v 64 % s.m)) % s.m) ∧
    (∀ (H : HashFn) (s : Bloom.PartitionedBloomFilter) (v : Value) (i : ℕ),
        1 ≤ s.partition_size → i < s.k → s.partition_size * s.k ≤ U64 →
        Bloom.PartitionedBloomFilter.probe H s v i
          = (H v 0 % s.partition_size + i * (H v 64 % s.partition_size))
            % s.partition_size) ∧
    (∀ (H : HashFn) (s : Lib.BloomFilter) (v : Value) (i : ℕ),
        Lib.BloomFilter.probe H s v i = H v i % s.m) :=
  ⟨fun H s v i hM hik hb => kmIdx_no_wrap H v s.m s.k i hM hik hb,
    fun H s v i hM hik hb => kmIdx_no_wrap H v s.m s.k i hM hik hb,
    fun H s v i hM hik hb => kmIdx_no_wrap H v s.partition_size s.k i hM hik hb,
    fun H s v i => rfl⟩

/-- Witness for C5 at concrete inputs. -/
theorem probe_derivation_witness :
    ClassicalBloomFilter.probe idHash ⟨5, 2, List.replicate 5 false⟩ [9] 1
      = (idHash [9] 0 % 5 + 1 * (idHash [9] 64 % 5)) % 5 :=
  probe_derivation.1 idHash ⟨5, 2, List.replicate 5 false⟩ [9] 1 (by decide)
    (by decide) (by decide)

/-- Counterexample for C5 as stated: the `lib.rs` variant's second probe
index does not follow the two-hash double-hashing formula. -/
theorem lib_probe_not_double_hashed :
    (1 : ℕ) < (⟨1, 0, 5, 2, List.replicate 5 false⟩ : Lib.BloomFilter).k ∧
    1 ≤ (⟨1, 0, 5, 2, List.replicate 5 false⟩ : Lib.BloomFilter).m ∧
    (⟨1, 0, 5, 2, List.replicate 5 false⟩ : Lib.BloomFilter).m *
        (⟨1, 0, 5, 2, List.replicate 5 false⟩ : Lib.BloomFilter).k ≤ U64 ∧
    Lib.BloomFilter.probe idHash ⟨1, 0, 5, 2, List.replicate 5 false⟩ [] 1
      ≠ (idHash [] 0 % 5 + 1 * (idHash [] 64 % 5)) % 5 :=
  ⟨by decide, by decide, by decide, by decide⟩

theorem getElem?_isSome_of_lt {α : Type} (l : List α) (p : ℕ)
    (h : p < l.length) : l[p]?.isSome = true := by
  rw [List.getElem?_eq_getElem h]
  rfl

/-- C10 (amended): on every filter with nonzero modulus, every probe index
is strictly below the bit-array length (for the partitioned variant, below
`partition_size`), so bit reads always yield a present value; and the
intermediate `u64` sum `hash1 + i * hash2` stays below `2 ^ 64` whenever
`M * k ≤ 2 ^ 64` — a bound satisfied by every filter the constructor can
produce, but not by arbitrary states (see the counterexample). -/
theorem probe_bounds_no_overflow :
    (∀ (H : HashFn) (v : Value) (M i : ℕ), 1 ≤ M → kmIdx H v M i < M) ∧
    (∀ (H : HashFn) (s : ClassicalBloomFilter) (v : Value) (i : ℕ), s.WF →
        s.storage[ClassicalBloomFilter.probe H s v i]?.isSome = true) ∧
    (∀ (H : HashFn) (s : Bloom.BloomFilter) (v : Value) (i : ℕ), s.WF →
        s.storage[Bloom.BloomFilter.probe H s v i]?.isSome = true) ∧
    (∀ (H : HashFn) (s : Bloom.PartitionedBloomFilter) (v : Value) (i j : ℕ),
        s.WF → j < s.k →
        ((s.partitions[j]?.getD
          [])[Bloom.PartitionedBloomFilter.probe H s v i]?).isSome = true) ∧
    (∀ (H : HashFn) (s : Lib.BloomFilter) (v : Value) (i : ℕ),
        1 ≤ s.m → s.storage.length = s.m →
        s.storage[Lib.BloomFilter.probe H s v i]?.isSome = true) ∧
    (∀ (H : HashFn) (v : Value) (M k i : ℕ),
        1 ≤ M → i < k → M * k ≤ U64 → kmSum H v M i < U64) := by
  refine ⟨fun H v M i hM => Nat.mod_lt _ (by omega), ?_, ?_, ?_, ?_,
    fun H v M k i hM hik hb => kmSum_lt H v M k i hM hik hb⟩
  · intro H s v i hWF
    exact getElem?_isSome_of_lt _ _
      (by rw [hWF.2]; exact Nat.mod_lt _ (by have := hWF.1; omega))
  · intro H s v i hWF
    exact getElem?_isSome_of_lt _ _
      (by rw [hWF.2]; exact Nat.mod_lt _ (by have := hWF.1; omega))
  · intro H s v i j hWF hj
    exact getElem?_isSome_of_lt _ _
      (by rw [Bloom.PartitionedBloomFilter.partition_len s hWF j hj]
          exact Nat.mod_lt _ (by have := hWF.1; omega))
  · intro H s v i hm hlen
    exact getElem?_isSome_of_lt _ _
      (by rw [hlen]; exact Nat.mod_lt _ (by have := hm; omega))

/-- Witness for C10 at concrete inputs. -/
theorem probe_bounds_no_overflow_witness :
    kmIdx idHash [2] 5 1 < 5 ∧
    (List.replicate 5 false)[ClassicalBloomFilter.probe idHash
        ⟨5, 2, List.replicate 5 false⟩ [2] 1]?.isSome = true ∧
    (List.replicate 6 false)[Bloom.BloomFilter.probe idHash
        ⟨6, 2, List.replicate 6 false⟩ [2] 1]?.isSome = true ∧
    (((List.replicate 2 (List.replicate 5 false) :
          List (List Bool))[1]?.getD
        [])[Bloom.PartitionedBloomFilter.probe idHash
        ⟨10, 2, 5, List.replicate 2 (List.replicate 5 false)⟩ [2] 1]?).isSome
      = true ∧
    (List.replicate 5 false)[Lib.BloomFilter.probe idHash
        ⟨1, 0, 5, 2, List.replicate 5 false⟩ [2] 1]?.isSome = true ∧
    kmSum idHash [2] 5 1 < U64 :=
  ⟨probe_bounds_no_overflow.1 idHash [2] 5 1 (by decide),
    probe_bounds_no_overflow.2.1 idHash ⟨5, 2, List.replicate 5 false⟩ [2] 1
      ⟨by decide, by decide⟩,
    probe_bounds_no_overflow.2.2.1 idHash ⟨6, 2, List.replicate 6 false⟩ [2] 1
      ⟨by decide, by decide⟩,
    probe_bounds_no_overflow.2.2.2.1 idHash
      ⟨10, 2, 5, List.replicate 2 (List.replicate 5 false)⟩ [2] 1 1
      ⟨by decide, by decide, by decide⟩ (by decide),
    probe_bounds_no_overflow.2.2.2.2.1 idHash
      ⟨1, 0, 5, 2, List.replicate 5 false⟩ [2] 1 (by decide) (by decide),
    probe_bounds_no_overflow.2.2.2.2.2 idHash [2] 5 2 1 (by decide)
      (by decide) (by decide)⟩

/-- Counterexample for C10 as stated: for a state whose modulus and hash
count do not satisfy `M * k ≤ 2 ^ 64` (unreachable through `new`, but not
excluded by the claim, which only assumes a nonzero bit-array length), the
`u64` sum `hash1 + i * hash2` exceeds `2 ^ 64 - 1` and wraps. -/
theorem kmSum_can_overflow :
    1 ≤ (2 : ℕ) ^ 62 ∧ (7 : ℕ) < 8 ∧ ¬ kmSum bigHash [] (2 ^ 62) 7 < U64 :=
  ⟨by decide, by decide, by decide⟩

/-- Field-for-field conversion between the two structurally identical
classical variants. -/
def Bloom.BloomFilter.toClassical (s : Bloom.BloomFilter) :
    ClassicalBloomFilter :=
  ⟨s.m, s.k, s.storage⟩

theorem toClassical_insert (H : HashFn) (s : Bloom.BloomFilter) (v : Value) :
    (Bloom.BloomFilter.insert H s v).toClassical
      = ClassicalBloomFilter.insert H s.toClassical v := rfl

theorem toClassical_fold (H : HashFn) (vs : List Value)
    (s : Bloom.BloomFilter) :
    (vs.foldl (Bloom.BloomFilter.insert H) s).toClassical
      = vs.foldl (ClassicalBloomFilter.insert H) s.toClassical := by
  induction vs generalizing s with
  | nil => rfl
  | cons w t ih =>
    rw [List.foldl_cons, List.foldl_cons, ← toClassical_insert]
    exact ih (Bloom.BloomFilter.insert H s w)

theorem toClassical_new (n : ℕ) (f : ℝ) :
    (Bloom.BloomFilter.new n f).map Bloom.BloomFilter.toClassical
      = ClassicalBloomFilter.new n f := by
  unfold Bloom.BloomFilter.new ClassicalBloomFilter.new
  by_cases h : n = 0
  · rw [if_pos h, if_pos h]
    rfl
  · rw [if_neg h, if_neg h]
    rfl

/-- C9: the `bloom.rs` `BloomFilter` and the `ClassicalBloomFilter` are
behaviourally equivalent: from the same `(n, f)` they derive the same
`m` and `k` (or both reject), and after the same insert sequence every
`lookup` and `get_size` agrees. -/
theorem bloom_equiv_classical :
    ∀ (n : ℕ) (f : ℝ) (H : HashFn) (vs : List Value) (v : Value),
    (Bloom.BloomFilter.new n f).map (fun s =>
        ((vs.foldl (Bloom.BloomFilter.insert H) s).m,
          (vs.foldl (Bloom.BloomFilter.insert H) s).k,
          Bloom.BloomFilter.lookup H
            (vs.foldl (Bloom.BloomFilter.insert H) s) v,
          Bloom.BloomFilter.get_size
            (vs.foldl (Bloom.BloomFilter.insert H) s)))
      = (ClassicalBloomFilter.new n f).map (fun s =>
        ((vs.foldl (ClassicalBloomFilter.insert H) s).m,
          (vs.foldl (ClassicalBloomFilter.insert H) s).k,
          ClassicalBloomFilter.lookup H
            (vs.foldl (ClassicalBloomFilter.insert H) s) v,
          ClassicalBloomFilter.get_size
            (vs.foldl (ClassicalBloomFilter.insert H) s))) := by
  intro n f H vs v
  rw [← toClassical_new, Option.map_map]
  cases hnew : Bloom.BloomFilter.new n f with
  | none => rfl
  | some s =>
    show some _ = some _
    have hfold := toClassical_fold H vs s
    have h1 : (vs.foldl (Bloom.BloomFilter.insert H) s).m
        = (vs.foldl (ClassicalBloomFilter.insert H) s.toClassical).m := by
      rw [← hfold]
      rfl
    have h2 : (vs.foldl (Bloom.BloomFilter.insert H) s).k
        = (vs.foldl (ClassicalBloomFilter.insert H) s.toClassical).k := by
      rw [← hfold]
      rfl
    have h3 : Bloom.BloomFilter.lookup H
          (vs.foldl (Bloom.BloomFilter.insert H) s) v
        = ClassicalBloomFilter.lookup H
          (vs.foldl (ClassicalBloomFilter.insert H) s.toClassical) v := by
      rw [← hfold]
      rfl
    have h4 : Bloom.BloomFilter.get_size
          (vs.foldl (Bloom.BloomFilter.insert H) s)
        = ClassicalBloomFilter.get_size
          (vs.foldl (ClassicalBloomFilter.insert H) s.toClassical) := by
      rw [← hfold]
      rfl
    simp only [Function.comp_apply, Bloom.BloomFilter.toClassical, h1, h2,
      h3, h4]

/-- C2 (amended): `calculate_m` negates the already-ceiled value, so for
`f` in `(0, 1)` and `n ≥ 1` it computes the floor (not the ceiling) of
`-(n · ln f) / (ln 2)²`; in particular `calculate_m(0.01, 10) = 95`, not
96.  The `bloom.rs` copy is the identical formula. -/
theorem calculate_m_floor_formula :
    (∀ (f : ℝ) (n : ℕ), 0 < f → f < 1 → 1 ≤ n →
        (Filter.calculate_m f n : ℤ)
          = ⌊-((n : ℝ) * Real.log f) / Real.log 2 ^ 2⌋) ∧
    Filter.calculate_m (1 / 100) 10 = 95 ∧
    (∀ (f : ℝ) (n : ℕ),
        Bloom.BloomFilter.calculate_m f n = Filter.calculate_m f n) := by
  refine ⟨?_, calc_m_001_10, fun f n => rfl⟩
  intro f n hf0 hf1 hn
  unfold Filter.calculate_m
  have hp := log_two_sq_pos
  have hlog : Real.log f < 0 := Real.log_neg hf0 hf1
  have hn0 : (0 : ℝ) < (n : ℝ) := by
    exact_mod_cast Nat.lt_of_lt_of_le Nat.zero_lt_one hn
  have hx : Real.log f * (n : ℝ) / Real.log 2 ^ 2 < 0 :=
    div_neg_of_neg_of_pos (mul_neg_of_neg_of_pos hlog hn0) hp
  have hceil : ⌈Real.log f * (n : ℝ) / Real.log 2 ^ 2⌉ ≤ 0 :=
    Int.ceil_le.mpr (by exact_mod_cast le_of_lt hx)
  rw [Int.toNat_of_nonneg (by omega),
    show -((n : ℝ) * Real.log f) / Real.log 2 ^ 2
      = -(Real.log f * (n : ℝ) / Real.log 2 ^ 2) by ring,
    Int.floor_neg]

/-- Witness for C2 at concrete inputs. -/
theorem calculate_m_floor_formula_witness :
    (Filter.calculate_m (1 / 100) 10 : ℤ)
      = ⌊-(((10 : ℕ) : ℝ) * Real.log (1 / 100)) / Real.log 2 ^ 2⌋ :=
  calculate_m_floor_formula.1 (1 / 100) 10 (by norm_num) (by norm_num)
    (by norm_num)

/-- Counterexample for C2 as stated: the code yields 95 at
`(f, n) = (0.01, 10)` while the claimed ceiling formula yields 96. -/
theorem calculate_m_not_ceil :
    Filter.calculate_m (1 / 100) 10 = 95 ∧
    ⌈-((10 : ℝ) * Real.log (1 / 100)) / Real.log 2 ^ 2⌉ = 96 :=
  ⟨calc_m_001_10, ceil_formula_96⟩

/-- C6: `calculate_k` is the ceiling of the truncated integer quotient
`m / n` times `ln 2` — the division truncates before the ceiling is
applied; the `bloom.rs` copy is the identical formula. -/
theorem calculate_k_truncating :
    ∀ (m n : ℕ), 1 ≤ m → 1 ≤ n →
      (Filter.calculate_k m n : ℤ) = ⌈((m / n : ℕ) : ℝ) * Real.log 2⌉ ∧
      Filter.calculate_k m n = Filter.calculate_k (n * (m / n)) n ∧
      Bloom.BloomFilter.calculate_k m n = Filter.calculate_k m n := by
  intro m n hm hn
  refine ⟨?_, ?_, rfl⟩
  · unfold Filter.calculate_k
    have h0 : (0 : ℝ) ≤ ((m / n : ℕ) : ℝ) * Real.log 2 :=
      mul_nonneg (Nat.cast_nonneg _) (le_of_lt (Real.log_pos (by norm_num)))
    exact Int.toNat_of_nonneg (Int.ceil_nonneg h0)
  · unfold Filter.calculate_k
    rw [Nat.mul_div_cancel_left _ (by omega : 0 < n)]

/-- Witness for C6 at concrete inputs. -/
theorem calculate_k_truncating_witness :
    (Filter.calculate_k 96 10 : ℤ) = ⌈((96 / 10 : ℕ) : ℝ) * Real.log 2⌉ ∧
    Filter.calculate_k 96 10 = Filter.calculate_k (10 * (96 / 10)) 10 ∧
    Bloom.BloomFilter.calculate_k 96 10 = Filter.calculate_k 96 10 :=
  calculate_k_truncating 96 10 (by norm_num) (by norm_num)

theorem log_001_le : Real.log ((1 : ℝ) / 100) ≤ -(Real.log 2 ^ 2) := by
  have h10 := one_le_log_ten
  have hb := Real.log_two_lt_d9
  have ha := Real.log_two_gt_d9
  rw [log_inv_hundred]
  nlinarith

/-- C3 (amended): for `n ≥ 1` and `f` in `(0, 1)` small enough that
`ln f ≤ -(ln 2)²` (that is, `f ≤ exp(-(ln 2)²) ≈ 0.618`), both derived
parameters are at least 1 and both constructions succeed.  Without that
bound the invariant fails (see the counterexample). -/
theorem derived_params_positive :
    ∀ (n : ℕ) (f : ℝ), 1 ≤ n → 0 < f → f < 1 →
      Real.log f ≤ -(Real.log 2 ^ 2) →
      1 ≤ Filter.calculate_m f n ∧
      1 ≤ Filter.calculate_k (Filter.calculate_m f n) n ∧
      (ClassicalBloomFilter.new n f).isSome = true ∧
      (Bloom.PartitionedBloomFilter.new n f).isSome = true := by
  intro n f hn hf0 hf1 hflog
  have hp := log_two_sq_pos
  have hnR : (1 : ℝ) ≤ (n : ℝ) := by exact_mod_cast hn
  have hxle : Real.log f * (n : ℝ) / Real.log 2 ^ 2 ≤ -(n : ℝ) := by
    rw [div_le_iff₀ hp]
    calc Real.log f * (n : ℝ) ≤ -(Real.log 2 ^ 2) * (n : ℝ) :=
          mul_le_mul_of_nonneg_right hflog (by linarith)
      _ = -(n : ℝ) * Real.log 2 ^ 2 := by ring
  have hceil : ⌈Real.log f * (n : ℝ) / Real.log 2 ^ 2⌉ ≤ -(n : ℤ) := by
    apply Int.ceil_le.mpr
    push_cast
    exact hxle
  have hmn : n ≤ Filter.calculate_m f n := by
    unfold Filter.calculate_m
    have h := Int.toNat_le_toNat (a := (n : ℤ))
      (b := -⌈Real.log f * (n : ℝ) / Real.log 2 ^ 2⌉) (by omega)
    simpa using h
  have hm1 : 1 ≤ Filter.calculate_m f n := le_trans hn hmn
  have hdiv : 1 ≤ Filter.calculate_m f n / n :=
    (Nat.one_le_div_iff (by omega)).mpr hmn
  have hk1 : 1 ≤ Filter.calculate_k (Filter.calculate_m f n) n := by
    unfold Filter.calculate_k
    have hcast : (1 : ℝ) ≤ ((Filter.calculate_m f n / n : ℕ) : ℝ) := by
      exact_mod_cast hdiv
    have hpos : (0 : ℝ) < ((Filter.calculate_m f n / n : ℕ) : ℝ) * Real.log 2 :=
      mul_pos (by linarith) (Real.log_pos (by norm_num))
    have hcp := Int.ceil_pos.mpr hpos
    have h := Int.toNat_le_toNat (a := (1 : ℤ))
      (b := ⌈((Filter.calculate_m f n / n : ℕ) : ℝ) * Real.log 2⌉) (by omega)
    simpa using h
  refine ⟨hm1, hk1, ?_, ?_⟩
  · unfold ClassicalBloomFilter.new
    rw [if_neg (by omega)]
    rfl
  · unfold Bloom.PartitionedBloomFilter.new
    have heq : Bloom.PartitionedBloomFilter.calculate_k
        (Bloom.PartitionedBloomFilter.calculate_m f n) n
        = Filter.calculate_k (Filter.calculate_m f n) n := rfl
    rw [if_neg (by omega), if_neg (by omega)]
    rfl

/-- Witness for C3 at concrete inputs. -/
theorem derived_params_positive_witness :
    1 ≤ Filter.calculate_m (1 / 100) 10 ∧
    1 ≤ Filter.calculate_k (Filter.calculate_m (1 / 100) 10) 10 ∧
    (ClassicalBloomFilter.new 10 (1 / 100)).isSome = true ∧
    (Bloom.PartitionedBloomFilter.new 10 (1 / 100)).isSome = true :=
  derived_params_positive 10 (1 / 100) (by norm_num) (by norm_num)
    (by norm_num) log_001_le

/-- Counterexample for C3 as stated: at the valid parameters `n = 1`,
`f = 0.99`, the derived `m` is 0 (so `m ≥ 1` fails) and the partitioned
construction divides by zero (modelled: no result). -/
theorem derived_params_can_be_zero :
    1 ≤ (1 : ℕ) ∧ (0 : ℝ) < 99 / 100 ∧ (99 : ℝ) / 100 < 1 ∧
    Filter.calculate_m (99 / 100) 1 = 0 ∧
    Bloom.PartitionedBloomFilter.new 1 (99 / 100) = none :=
  ⟨le_refl 1, by norm_num, by norm_num, calc_m_099_1, partitioned_new_099_1⟩

/-- C4 (amended): construction never returns an explicit failure result:
at `n = 0` every variant panics on a division by zero (modelled: no
result), and for the invalid rate `f ≥ 1` the classical construction
silently returns a degenerate filter with `m = 0`, `k = 0` instead of
rejecting. -/
theorem construction_never_rejects :
    (∀ (f : ℝ),
        ClassicalBloomFilter.new 0 f = none ∧
        Bloom.BloomFilter.new 0 f = none ∧
        Bloom.PartitionedBloomFilter.new 0 f = none ∧
        Lib.BloomFilter.new 0 f = none) ∧
    (∀ (n : ℕ) (f : ℝ), 1 ≤ n → 1 ≤ f →
        ClassicalBloomFilter.new n f = some ⟨0, 0, []⟩) := by
  constructor
  · exact fun f => ⟨rfl, rfl, rfl, rfl⟩
  · intro n f hn hf
    have hm := calc_m_zero_of_one_le f n hf
    unfold ClassicalBloomFilter.new
    rw [if_neg (by omega), hm, calc_k_zero_left n]
    rfl

/-- Witness for C4 at concrete inputs. -/
theorem construction_never_rejects_witness :
    ClassicalBloomFilter.new 0 (1 / 2) = none ∧
    ClassicalBloomFilter.new 10 2 = some ⟨0, 0, []⟩ :=
  ⟨(construction_never_rejects.1 (1 / 2)).1,
    construction_never_rejects.2 10 2 (by norm_num) (by norm_num)⟩

/-- Counterexample for C4 as stated: the invalid rate `f = 2 ≥ 1` is not
surfaced as a rejected construction — a filter is produced. -/
theorem invalid_f_silently_accepted :
    (1 : ℝ) ≤ 2 ∧ ClassicalBloomFilter.new 10 2 = some ⟨0, 0, []⟩ := by
  refine ⟨by norm_num, ?_⟩
  have hm := calc_m_zero_of_one_le 2 10 (by norm_num)
  unfold ClassicalBloomFilter.new
  rw [if_neg (by omega), hm, calc_k_zero_left 10]
  rfl
